import Mathlib

/- Verification development for the timeline-filter feed generator.
   The Rust sources are embedded shallowly: Rust strings become lists of
   bytes, database tables become lists of rows, and the stateful loops
   become explicit state-passing functions.  Every definition is
   translated from the corresponding Rust function; deviations that the
   translation cannot avoid (Unicode tables, SQL engines) are recorded in
   the doc comments. -/

namespace TimelineFilter

/-- Rust str values are UTF-8 byte sequences; we model them as lists of
byte values (each intended to lie below 256). -/
abbrev RStr := List Nat

/-- Model of the byte-level effect of Rust str::to_lowercase on the ASCII
range: bytes 65..90 (A..Z) map to 97..122 (a..z), all other bytes are kept.
Rust also lowers non-ASCII characters through the Unicode tables; the
claims under study only exercise the ASCII range, where this model is
exact. -/
def toLowerByte (b : Nat) : Nat := if 65 ≤ b ∧ b ≤ 90 then b + 32 else b

/-- Model of Rust str::to_lowercase (ASCII range, see toLowerByte). -/
def toLower (s : RStr) : RStr := s.map toLowerByte

/-- Model of Rust str::find(pat): the byte index of the first occurrence
of pat in text, or none.  An occurrence at index i means pat is the
length-pat prefix of the suffix of text starting at byte i.  As in Rust,
the empty pattern is found at index 0. -/
def strFind (pat : RStr) : RStr → Option Nat
  | [] => if pat = [] then some 0 else none
  | b :: rest =>
      if (b :: rest).take pat.length = pat then some 0
      else (strFind pat rest).map (· + 1)

/-- Model of the Rust cast expression (n as i32) applied to a usize byte
position n: wrap into the signed 32-bit range. -/
def i32cast (n : Nat) : Int := (((n + 2 ^ 31) % 2 ^ 32 : Nat) : Int) - 2 ^ 31

/-- The per-token loop shared by SequenceMatcher::matches (matcher.rs
lines 248-265) and sequence_matches (matcher.rs lines 289-308).  The Rust
loop keeps last_found : i32 (initially -1) and breaks with last_found = -1
as soon as a token is missing or its first occurrence is not strictly
beyond the previous one; on normal completion last_found is the cast of
the final position, which the guard forces to be nonnegative, and
found_index equals the index of the last token.  The final Rust check
last_found != -1 AND found_index == len - 1 is therefore exactly: the
token list is nonempty and this loop ran to completion, which is how
sequence_matches below assembles the result. -/
def seq_loop (text : RStr) : List RStr → Int → Bool
  | [], _ => true
  | t :: ts, last =>
      match strFind t text with
      | some p => if last < i32cast p then seq_loop text ts (i32cast p) else false
      | none => false

/-- Model of sequence_matches (matcher.rs lines 289-308): the first
occurrence of every token must exist and the occurrence positions must be
strictly increasing in token order.  Note that the text is scanned from
the start for every token (str::find), and the tokens are compared
verbatim. -/
def sequence_matches (tokens : List RStr) (text : RStr) : Bool :=
  decide (tokens ≠ []) && seq_loop text tokens (-1)

/-- A node produced by a JSON-path query, as far as the matchers inspect
it: either a JSON string or anything else (the matchers filter everything
else away). -/
inductive JNode where
  | jstr (s : RStr)
  | jother
deriving DecidableEq

/-- Model of the shared prelude of EqualsMatcher::matches,
PrefixMatcher::matches and SequenceMatcher::matches: keep the string
nodes among the query results, lowercasing each (matcher.rs lines
128-139, 237-246). -/
def stringNodes (nodes : List JNode) : List RStr :=
  nodes.filterMap fun n =>
    match n with
    | JNode.jstr s => some (toLower s)
    | JNode.jother => none

/-- Model of the decision part of EqualsMatcher::matches (matcher.rs lines
126-152): matched iff some lowercased string node equals the configured
value.  The configured value self.expected is stored verbatim by
EqualsMatcher::new (lines 108-124); it is not lowercased. -/
def EqualsMatcher_found (expected : RStr) (nodes : List JNode) : Bool :=
  (stringNodes nodes).any fun v => v = expected

/-- Model of the decision part of SequenceMatcher::matches (matcher.rs
lines 233-278): some lowercased string node passes the per-token loop.
The configured tokens are stored verbatim by SequenceMatcher::new (lines
216-231); they are not lowercased. -/
def SequenceMatcher_found (tokens : List RStr) (nodes : List JNode) : Bool :=
  (stringNodes nodes).any fun s => sequence_matches tokens s

/-- Model of str::find restarted at a given start index: least occurrence
index at or after start. -/
def findFrom (pat text : RStr) (start : Nat) : Option Nat :=
  (strFind pat (text.drop start)).map (· + start)

/-- Left-to-right scan as the specification sentence describes it: each
token must occur at a byte position strictly greater than the position of
the previous match, with the search resuming rather than restarting. -/
def scanFrom (text : RStr) : List RStr → Int → Bool
  | [], _ => true
  | t :: ts, prev =>
      match findFrom t text (prev + 1).toNat with
      | some p => scanFrom text ts p
      | none => false

/-- The claim statement for SequenceMatcher, written from the words of the
specification: scanning left-to-right, every token occurs at a strictly
increasing byte position relative to the previous match, the scan reaches
the last token, and matching is case-insensitive (so both the text and
the tokens are compared lowercased). -/
def seqScanSpec (tokens : List RStr) (text : RStr) : Bool :=
  decide (tokens ≠ []) && scanFrom (toLower text) (tokens.map toLower) (-1)

/-- The claim statement for EqualsMatcher, written from the words of the
specification: matched iff some string node equals the configured value,
the comparison being case-insensitive on both sides. -/
def equalsSpecCI (expected : RStr) (nodes : List JNode) : Bool :=
  (stringNodes nodes).any fun v => v = toLower expected

/-- A byte is a UTF-8 continuation byte iff it lies in 0x80..0xBF; Rust
writes this test as (b as i8) less than -0x40. -/
def isContinuationByte (b : Nat) : Bool := 128 ≤ b && b ≤ 191

/-- Model of Rust str::is_char_boundary: index 0 is a boundary, an index
holding a byte is a boundary iff that byte is not a continuation byte,
and an out-of-bounds index is a boundary only when it equals the length. -/
def isCharBoundary (s : RStr) (i : Nat) : Bool :=
  i == 0 ||
    (match s[i]? with
     | some b => !(isContinuationByte b)
     | none => i == s.length)

/-- Model of did_from_aturi (consumer.rs lines 225-235).  Rust slices the
string as aturi[5..], which panics when byte index 5 is not a character
boundary; the panic is modelled as none.  The second slice
aturi[5..collection_start] cannot panic on valid UTF-8, because
collection_start is either the length or the index of an ASCII slash.
Note that the function never checks that the input actually starts with
the five bytes of the string at:// and it returns the empty string for
inputs shorter than 6 bytes. -/
def did_from_aturi (aturi : RStr) : Option RStr :=
  if aturi.length < 6 then some []
  else if ¬ isCharBoundary aturi 5 then none
  else
    let tail := aturi.drop 5
    let collection_start := ((strFind [47] tail).map (· + 5)).getD aturi.length
    some (tail.take (collection_start - 5))

/-- The five bytes of the string at:// . -/
def atSchemeBytes : RStr := [97, 116, 58, 47, 47]

/-- Standard UTF-8 encoding of one Unicode scalar value. -/
def utf8Encode (c : Char) : RStr :=
  let n := c.toNat
  if n < 128 then [n]
  else if n < 2048 then [192 + n / 64, 128 + n % 64]
  else if n < 65536 then [224 + n / 4096, 128 + n / 64 % 64, 128 + n % 64]
  else [240 + n / 262144, 128 + n / 4096 % 64, 128 + n / 64 % 64, 128 + n % 64]

/-- UTF-8 encoding of a character sequence. -/
def utf8Bytes (cs : List Char) : RStr := (cs.map utf8Encode).flatten

/-- A byte list is valid UTF-8 iff it encodes some character sequence.
Every Rust str value satisfies this by the type invariant of str. -/
def ValidUtf8 (s : RStr) : Prop := ∃ cs : List Char, utf8Bytes cs = s

/-- Match operations (matcher.rs lines 12-17). -/
inductive MatchOperation where
  | Upsert
  | Update
deriving DecidableEq

/-- A produced match: operation plus the AT-URI to store (matcher.rs line
20). -/
structure FMatch where
  op : MatchOperation
  aturi : RStr
deriving DecidableEq

/-- Model of denylist_exists (storage.rs lines 252-275): count the deny
rows whose subject occurs among the given subjects and test the count
against zero. -/
def denylist_exists (table : List RStr) (subjects : List RStr) : Bool :=
  0 < (table.filter fun row => subjects.contains row).length

/-- One row written to feed_content by the firehose loop (consumer.rs
lines 198-203): the score of a candidate row is always 1 and indexed_at
is the event timestamp. -/
structure IndexWrite where
  feed : String
  op : MatchOperation
  uri : RStr
  indexed_at : Int
  score : Int
deriving DecidableEq

/-- Model of the matchers_loop of ConsumerTask::run_background
(consumer.rs lines 188-214) for one decoded commit event.  Each feed is
represented together with the result its FeedMatcher::matches call would
produce on this event.  On a match the author DID is derived with
did_from_aturi (whose panic, modelled by none, propagates); if the deny
list holds the event DID or the derived DID the loop breaks out without
storing anything, otherwise the row is recorded and the loop continues.
The result pairs the performed writes with the number of feeds whose
matcher was evaluated. -/
def run_matchers (deny : List RStr) (eventDid : RStr) (timeUs : Int) :
    List (String × Option FMatch) → Option (List IndexWrite × Nat)
  | [] => some ([], 0)
  | (_, none) :: rest =>
      (run_matchers deny eventDid timeUs rest).map fun r => (r.1, r.2 + 1)
  | (feed, some m) :: rest =>
      match did_from_aturi m.aturi with
      | none => none
      | some aturiDid =>
          if denylist_exists deny [eventDid, aturiDid] then some ([], 1)
          else
            (run_matchers deny eventDid timeUs rest).map fun r =>
              (⟨feed, m.op, m.aturi, timeUs, 1⟩ :: r.1, r.2 + 1)

/-- The number of feeds whose matcher the loop evaluates for one event:
every feed up to and including the first one that produces a match. -/
def feedsEvaluated : List (String × Option FMatch) → Nat
  | [] => 0
  | (_, none) :: rest => feedsEvaluated rest + 1
  | (_, some _) :: _ => 1

/-- The firehose loop steps that touch the in-process cursor (consumer.rs
lines 110-176): a successfully decoded event carries time_us, and the
120-second timer fires a checkpoint.  Other loop activity (matching,
skipped frames) does not read or write time_usec. -/
inductive JetStep where
  | event (timeUs : Int)
  | checkpoint
deriving DecidableEq

/-- Model of the select loop of ConsumerTask::run_background restricted
to the cursor state: time_usec is updated to the maximum of itself and
each observed event timestamp (line 172), and each checkpoint appends the
current time_usec to the list of values written through
consumer_control_insert (line 122).  Returns the final time_usec and the
writes in order. -/
def jet_loop : List JetStep → Int → Int × List Int
  | [], t => (t, [])
  | JetStep.event u :: rest, t => jet_loop rest (max t u)
  | JetStep.checkpoint :: rest, t =>
      let r := jet_loop rest t
      (r.1, t :: r.2)

/-- One run of the consumer: time_usec starts at 0 (consumer.rs line 114)
regardless of the previously persisted cursor, which is read only to be
sent as the subscribe cursor. -/
def consumer_run (steps : List JetStep) : Int × List Int := jet_loop steps 0

/-- The cursor values a run persists, in order. -/
def cursor_writes (steps : List JetStep) : List Int := (consumer_run steps).2

/-- The cursor sent in the options_update frame (consumer.rs lines
65-89): exactly the previously persisted value, or absent. -/
def subscribe_cursor (stored : Option Int) : Option Int := stored

/-- The timestamps of the decoded events of a run, in order. -/
def eventTimes (steps : List JetStep) : List Int :=
  steps.filterMap fun s =>
    match s with
    | JetStep.event u => some u
    | JetStep.checkpoint => none

namespace Storage

/-- FeedContent as carried by the firehose pipeline (storage.rs lines
13-19). -/
structure FeedContent where
  feed_id : String
  uri : String
  indexed_at : Int
  score : Int
deriving DecidableEq

/-- A stored feed_content row of the firehose schema; updated_at is set
on every write (times are modelled as naturals). -/
structure Row where
  feed_id : String
  uri : String
  indexed_at : Int
  updated_at : Nat
  score : Int
deriving DecidableEq

/-- Model of feed_content_update (storage.rs lines 70-86): add the
supplied score to every row with the same (feed_id, uri) key and advance
updated_at; no row is created when the key is absent. -/
def feed_content_update (table : List Row) (fc : FeedContent) (now : Nat) : List Row :=
  table.map fun row =>
    if row.feed_id = fc.feed_id ∧ row.uri = fc.uri then
      { row with score := row.score + fc.score, updated_at := now }
    else row

/-- Model of feed_content_upsert (storage.rs lines 43-68).  The SQL
INSERT OR REPLACE deletes any row with the conflicting (feed_id, uri)
primary key and inserts the supplied values with updated_at set to now.
SQLite reports one affected row for the REPLACE, so rows_affected is
never 0 and the score-increment branch is dead code. -/
def feed_content_upsert (table : List Row) (fc : FeedContent) (now : Nat) : List Row :=
  let replaced :=
    (table.filter fun row => ¬(row.feed_id = fc.feed_id ∧ row.uri = fc.uri)) ++
      [⟨fc.feed_id, fc.uri, fc.indexed_at, now, fc.score⟩]
  let rowsAffected := 1
  if rowsAffected = 0 then feed_content_update replaced fc now else replaced

/-- Microsecond bounds of the chrono DateTime range (seconds
-8334632851200 to 8210298412799, that is years -262144 to 262143 in the
proleptic Gregorian calendar); DateTime::from_timestamp_micros returns
None outside this range. -/
def chronoMicrosLo : Int := -8334632851200000000

/-- Upper microsecond bound of the chrono DateTime range, see
chronoMicrosLo. -/
def chronoMicrosHi : Int := 8210298412799999999

/-- Model of FeedContent::age_in_hours (storage.rs lines 22-33).
DateTime::from_timestamp_micros yields none outside the representable
range, in which case the age defaults to 1.  Otherwise
trunc_subsecs(0).timestamp() is the floor of micros / 10^6, the
difference to now is divided by 3600 with the Rust i64 division
(truncation toward zero), incremented, and clamped to a minimum of 1. -/
def age_in_hours (fc : FeedContent) (now : Int) : Int :=
  if fc.indexed_at < chronoMicrosLo ∨ chronoMicrosHi < fc.indexed_at then 1
  else
    let target := fc.indexed_at.fdiv 1000000
    let diff_seconds := now - target
    max (diff_seconds.tdiv 3600 + 1) 1

end Storage

namespace FeedStorage

/-- FeedContent as carried by the timeline pipeline (feed_storage.rs
lines 13-21). -/
structure FeedContent where
  feed_id : String
  uri : String
  indexed_at : Int
  score : Int
  is_repost : Bool
  repost_uri : Option String
deriving DecidableEq

/-- A stored feed_content row of the timeline schema. -/
structure Row where
  feed_id : String
  uri : String
  indexed_at : Int
  updated_at : Nat
  score : Int
  is_repost : Bool
  repost_uri : Option String
deriving DecidableEq

/-- Model of feed_content_upsert (feed_storage.rs lines 31-63): count the
rows with the same (feed_id, uri); when one exists the table is left
untouched and false (duplicate) is returned, otherwise the row is
inserted with updated_at = now and true (new) is returned. -/
def feed_content_upsert (table : List Row) (fc : FeedContent) (now : Nat) :
    List Row × Bool :=
  let already :=
    0 < (table.filter fun row => row.feed_id = fc.feed_id ∧ row.uri = fc.uri).length
  if already then (table, false)
  else
    (table ++ [⟨fc.feed_id, fc.uri, fc.indexed_at, now, fc.score, fc.is_repost,
      fc.repost_uri⟩], true)

/-- N repeated calls of feed_content_upsert with the same row, one call
per element of the nows list. -/
def repeat_upsert (fc : FeedContent) : List Nat → List Row → List Row
  | [], table => table
  | now :: nows, table => repeat_upsert fc nows (feed_content_upsert table fc now).1

/-- The number of rows holding the (feed_id, uri) key. -/
def countKey (table : List Row) (feed_id uri : String) : Nat :=
  (table.filter fun row => row.feed_id = feed_id ∧ row.uri = uri).length

end FeedStorage

namespace Timeline

/-- One row of timeline_poll_cursor, per user DID.  The four columns
last_cursor, last_poll_at, posts_indexed and total_posts_indexed appear
in timeline_storage.rs; last_backfill_poll_at is the backfill-track
due-time record of specification section 3, which the sources only
reference through the missing backfill helpers. -/
structure PollState where
  last_cursor : Option String
  last_poll_at : Option Nat
  posts_indexed : Int
  total_posts_indexed : Int
  last_backfill_poll_at : Option Nat
deriving DecidableEq

/-- Model of update_poll_state (timeline_storage.rs lines 183-238): both
the UPDATE branch and the INSERT branch write last_cursor, last_poll_at
and posts_indexed and add posts_indexed to total_posts_indexed (which the
INSERT starts at posts_indexed).  The backfill due-time record is not
among the written columns. -/
def update_poll_state (st : Option PollState) (cursor : Option String)
    (posts_indexed : Int) (now : Nat) : PollState :=
  match st with
  | some s =>
      { s with
        last_cursor := cursor
        last_poll_at := some now
        posts_indexed := posts_indexed
        total_posts_indexed := s.total_posts_indexed + posts_indexed }
  | none =>
      { last_cursor := cursor
        last_poll_at := some now
        posts_indexed := posts_indexed
        total_posts_indexed := posts_indexed
        last_backfill_poll_at := none }

/-- Modelled from the spec: update_poll_state_backfill is called by
poll_timeline_mode (timeline_consumer.rs lines 352-358) but its
definition is missing from the sources.  Per specification section 4.D
the backfill track keeps its own due-time record, disjoint from the
fresh-track last_poll_at, so the model sets last_backfill_poll_at and
leaves every other column unchanged. -/
def update_poll_state_backfill (s : PollState) (_new_posts : Int) (now : Nat) :
    PollState :=
  { s with last_backfill_poll_at := some now }

/-- Model of the state-update step of poll_timeline_mode
(timeline_consumer.rs lines 339-370): a backfill poll stores the response
cursor through update_poll_state and then updates the backfill tracking;
a fresh poll calls update_poll_state with cursor None.  The caller also
passes a blocked count, but update_poll_state in timeline_storage.rs
takes no such argument, so it has no modelled effect. -/
def poll_state_update (st : Option PollState) (is_backfill : Bool)
    (resp_cursor : Option String) (new_posts : Int) (now : Nat) : PollState :=
  if is_backfill then
    update_poll_state_backfill (update_poll_state st resp_cursor new_posts now)
      new_posts now
  else
    update_poll_state st none new_posts now

end Timeline

namespace Cache

/-- Model of Cache::get_posts (cache.rs lines 53-63) for one feed: an
uncached feed yields none; a page index strictly greater than the chunk
count yields an empty page; otherwise the chunk at the index, which is
none exactly when the page index equals the chunk count. -/
def get_posts (cached_feed : Option (List (List String))) (page : Nat) :
    Option (List String) :=
  match cached_feed with
  | none => none
  | some feed_chunks =>
      if page > feed_chunks.length then some []
      else feed_chunks[page]?

/-- A popular-scored row before sorting: the numerator max(0, score - 1),
the base 2 + age_hours, and the URI; the age is at least 1 so the base is
positive. -/
structure ScoredPost where
  num : Nat
  base : Nat
  uri : String
  base_pos : 0 < base

/-- The exact descending order of two popular scores: with gravity p/q
(q positive), score a = a.num / a.base^(p/q) is at least score b iff
b.num^q * a.base^p is at most a.num^q * b.base^p; scoredGE_iff_real
below shows this is exactly the order of the real-valued scores of the
specification formula.  This relation is NOT the comparison the source
sorts with: the source computes each score in f64 with the platform libm
powf, whose rounding Rust leaves unspecified, and that comparison can
deviate from the exact order at near-tie inputs.  generate_popular below
therefore takes the comparison it sorts with as a parameter, and
scoredGE serves to state when that comparison is exact. -/
def scoredGE (p q : Nat) (a b : ScoredPost) : Prop :=
  b.num ^ q * a.base ^ p ≤ a.num ^ q * b.base ^ p

instance (p q : Nat) : DecidableRel (scoredGE p q) := fun a b =>
  decidable_of_iff (b.num ^ q * a.base ^ p ≤ a.num ^ q * b.base ^ p) Iff.rfl

/-- The age of a row is always at least 1. -/
theorem one_le_age_in_hours (fc : Storage.FeedContent) (now : Int) :
    1 ≤ Storage.age_in_hours fc now := by
  unfold Storage.age_in_hours
  split
  · exact le_refl 1
  · exact le_max_right _ _

/-- The scored triple generate_popular builds for each row (cache.rs
lines 198-207). -/
def scoredPost (now : Int) (fc : Storage.FeedContent) : ScoredPost :=
  ⟨(max (fc.score - 1) 0).toNat, (2 + Storage.age_in_hours fc now).toNat, fc.uri,
    by have h := one_le_age_in_hours fc now; omega⟩

/-- Model of CacheTask::generate_popular (cache.rs lines 194-216): score
each row read for the feed (scoredPost carries the numerator
max(0, score - 1) and the base 2 + age symbolically), sort descending by
the computed f64 score (sort_by with the reversed partial_cmp, line
209), and project the URIs.  The f64 score of line 203 divides the
numerator by the base raised to gravity with powf, the platform libm
power whose rounding Rust leaves unspecified, so the resulting
comparison is not specifiable exactly; the model takes that comparison
as the parameter le (le a b meaning the computed score of a is at least
the computed score of b). -/
def generate_popular (posts : List Storage.FeedContent) (now : Int)
    (le : ScoredPost → ScoredPost → Prop) [DecidableRel le] : List String :=
  ((posts.map (scoredPost now)).insertionSort le).map ScoredPost.uri

end Cache

namespace Http

/-- Query parameters of getFeedSkeleton
(handle_get_feed_skeleton.rs lines 11-16).  The decimal cursor is
modelled already parsed: the handler and get_feed_posts both parse it with
unwrap_or(0), so a missing or unparsable cursor is offset 0. -/
structure FeedParams where
  feed : Option String
  limit : Option Nat
  cursor : Option Nat

/-- Outcome of the getFeedSkeleton handler: a body of post URIs plus an
optional next cursor, or the error path. -/
inductive HandlerResult where
  | ok (posts : List String) (next_cursor : Option Nat)
  | err
deriving DecidableEq

/-- Model of handle_get_feed_skeleton (handle_get_feed_skeleton.rs lines
39-88).  The rows argument is the feed_content table for the requested
feed already ordered by indexed_at descending, as produced by
get_feed_posts (timeline_storage.rs lines 438-467), whose LIMIT and
OFFSET become take and drop.  A missing feed parameter takes the error
path. -/
def handle_get_feed_skeleton (params : FeedParams) (rows : List String) :
    HandlerResult :=
  if params.feed = none then HandlerResult.err
  else
    let limit := min (params.limit.getD 50) 100
    let offset := params.cursor.getD 0
    let posts := (rows.drop offset).take limit
    let next_cursor := if posts = [] then none else some (offset + posts.length)
    HandlerResult.ok posts next_cursor

/-- Model of TimelineFilterError::into_response (errors.rs lines 18-25):
every handler error is rendered with HTTP status 500. -/
def error_response_status : Nat := 500

/-- The HTTP status of a handler outcome: 200 on the success path, and
the TimelineFilterError status otherwise. -/
def handler_status (r : HandlerResult) : Nat :=
  match r with
  | HandlerResult.ok _ _ => 200
  | HandlerResult.err => error_response_status

end Http

section Lemmas

open FeedStorage

/-- Counting the key over concatenated tables adds up. -/
theorem countKey_append (t1 t2 : List Row) (f u : String) :
    countKey (t1 ++ t2) f u = countKey t1 f u + countKey t2 f u := by
  simp [countKey, List.filter_append]

/-- Upsert on a table holding the key leaves the table untouched and
reports duplicate. -/
theorem feed_content_upsert_present (table : List Row) (fc : FeedContent)
    (now : Nat) (h : 0 < countKey table fc.feed_id fc.uri) :
    feed_content_upsert table fc now = (table, false) := by
  simp only [countKey] at h
  obtain ⟨x, hx⟩ := List.exists_mem_of_length_pos h
  obtain ⟨hx1, hx2⟩ := List.mem_filter.mp hx
  have h2 : ∃ x ∈ table, x.feed_id = fc.feed_id ∧ x.uri = fc.uri :=
    ⟨x, hx1, by simpa using hx2⟩
  unfold feed_content_upsert
  simp [h2]

/-- Repeating upsert on a table that already holds the key never changes
the table. -/
theorem repeat_upsert_present (fc : FeedContent) (nows : List Nat)
    (table : List Row) (h : 0 < countKey table fc.feed_id fc.uri) :
    repeat_upsert fc nows table = table := by
  induction nows with
  | nil => rfl
  | cons now nows ih =>
      unfold repeat_upsert
      rw [feed_content_upsert_present table fc now h]
      exact ih

end Lemmas

/-- C1.  The claim is stated of content_upsert; the sources hold two
functions of that name.  The variant in feed_storage.rs satisfies the
claim and is handled by feed_content_upsert_amended below.  This theorem
refutes the claim for the variant in storage.rs used by the firehose
consumer: with the row (f, u) already stored with score 5, indexed_at 10
and updated_at 100, upserting (f, u, indexed_at 20, score 1) at time 200
REPLACEs the stored row, changing score, indexed_at and updated_at, and
the function returns no duplicate indication at all (its Rust type is
Result of unit). -/
theorem feed_content_upsert_replace_counterexample :
    Storage.feed_content_upsert
        [⟨"f", "u", 10, 100, 5⟩] ⟨"f", "u", 20, 1⟩ 200 = [⟨"f", "u", 20, 200, 1⟩] ∧
    (5 : Int) ≠ 1 := by decide

/-- C1 (amended).  For the feed_content_upsert of feed_storage.rs the
claim holds as stated: when the key (feed_id, uri) is already present the
table is not mutated at all and the call reports duplicate (false); and
starting from a table without the key, any positive number of repeated
calls with the same row leaves the table extended by exactly that row,
holding the originally supplied score, and exactly one row carries the
key. -/
theorem feed_content_upsert_amended :
    (∀ (table : List FeedStorage.Row) (fc : FeedStorage.FeedContent) (now : Nat),
      0 < FeedStorage.countKey table fc.feed_id fc.uri →
      FeedStorage.feed_content_upsert table fc now = (table, false)) ∧
    (∀ (table : List FeedStorage.Row) (fc : FeedStorage.FeedContent)
       (now : Nat) (nows : List Nat),
      FeedStorage.countKey table fc.feed_id fc.uri = 0 →
      FeedStorage.repeat_upsert fc (now :: nows) table =
        table ++ [⟨fc.feed_id, fc.uri, fc.indexed_at, now, fc.score, fc.is_repost,
          fc.repost_uri⟩] ∧
      FeedStorage.countKey (FeedStorage.repeat_upsert fc (now :: nows) table)
        fc.feed_id fc.uri = 1) := by
  constructor
  · exact fun table fc now h => feed_content_upsert_present table fc now h
  · intro table fc now nows h
    have hstep : FeedStorage.feed_content_upsert table fc now =
        (table ++ [⟨fc.feed_id, fc.uri, fc.indexed_at, now, fc.score, fc.is_repost,
          fc.repost_uri⟩], true) := by
      simp only [FeedStorage.countKey] at h
      have h2 : ∀ a ∈ table, a.feed_id = fc.feed_id → ¬ a.uri = fc.uri := by
        simpa [List.filter_eq_nil_iff] using congrArg (fun n => n = 0) h |>.mpr rfl
      unfold FeedStorage.feed_content_upsert
      simp only [FeedStorage.countKey]
      simp
      exact h2
    have hcount : FeedStorage.countKey
        (table ++ [⟨fc.feed_id, fc.uri, fc.indexed_at, now, fc.score, fc.is_repost,
          fc.repost_uri⟩]) fc.feed_id fc.uri = 1 := by
      rw [countKey_append, h]
      simp [FeedStorage.countKey]
    have hrep : FeedStorage.repeat_upsert fc (now :: nows) table =
        table ++ [⟨fc.feed_id, fc.uri, fc.indexed_at, now, fc.score, fc.is_repost,
          fc.repost_uri⟩] := by
      unfold FeedStorage.repeat_upsert
      rw [hstep]
      exact repeat_upsert_present fc nows _ (by rw [hcount]; exact Nat.one_pos)
    exact ⟨hrep, by rw [hrep]; exact hcount⟩

/-- C1 (witness).  The amended theorem applied at a concrete table and
row: a duplicate upsert leaves the single-row table untouched, and three
repeated upserts starting from the empty table produce exactly the one
inserted row with its original score. -/
theorem feed_content_upsert_amended_witness :
    FeedStorage.feed_content_upsert
        [⟨"f", "u", 10, 100, 5, false, none⟩] ⟨"f", "u", 20, 1, false, none⟩ 200 =
      ([⟨"f", "u", 10, 100, 5, false, none⟩], false) ∧
    FeedStorage.repeat_upsert ⟨"f", "u", 20, 1, false, none⟩ [200, 300, 400] [] =
        [⟨"f", "u", 20, 200, 1, false, none⟩] ∧
      FeedStorage.countKey
        (FeedStorage.repeat_upsert ⟨"f", "u", 20, 1, false, none⟩ [200, 300, 400] [])
        "f" "u" = 1 :=
  ⟨feed_content_upsert_amended.1 _ _ _ (by decide),
   feed_content_upsert_amended.2 [] ⟨"f", "u", 20, 1, false, none⟩ 200 [300, 400]
     (by decide)⟩

/-- C2.  The claim states that a fresh-mode poll never writes the stored
cursor and that a backfill-mode poll never updates the fresh-track
due-time.  The code violates both: starting from the poll state
(last_cursor c123, last_poll_at 10, posts_indexed 7, total 7,
last_backfill_poll_at 4), a fresh poll indexing 3 new posts at time 20
overwrites last_cursor with NULL (losing c123) and adds to
total_posts_indexed, and a backfill poll at time 20 rewrites last_poll_at
to 20, because poll_timeline_mode routes both modes through
update_poll_state, which unconditionally writes last_cursor and
last_poll_at.  The code comments (never save cursor in new posts mode;
separate backfill tracking) and the specification describe disjoint
track updates, so this is a defect of the code. -/
theorem poll_state_update_divergence :
    (Timeline.poll_state_update (some ⟨some "c123", some 10, 7, 7, some 4⟩)
        false none 3 20).last_cursor = none ∧
    (Timeline.poll_state_update (some ⟨some "c123", some 10, 7, 7, some 4⟩)
        true (some "c456") 3 20).last_poll_at = some 20 ∧
    (Timeline.poll_state_update (some ⟨some "c123", some 10, 7, 7, some 4⟩)
        false none 3 20).total_posts_indexed = 10 := by decide

/-- The cursor state of one firehose run: the final time_usec is the
running maximum (starting at the initial value) of the event timestamps,
every checkpointed value is at least the initial value, and the
checkpointed values are non-decreasing in order. -/
theorem jet_loop_spec (steps : List JetStep) (t : Int) :
    (jet_loop steps t).1 = (eventTimes steps).foldl max t ∧
    (∀ w ∈ (jet_loop steps t).2, t ≤ w) ∧
    List.Chain' (· ≤ ·) (jet_loop steps t).2 := by
  induction steps generalizing t with
  | nil => exact ⟨rfl, by simp [jet_loop], by simp [jet_loop]⟩
  | cons s rest ih =>
      cases s with
      | event u =>
          obtain ⟨h1, h2, h3⟩ := ih (max t u)
          refine ⟨by simpa [jet_loop, eventTimes] using h1, ?_, ?_⟩
          · intro w hw
            exact le_trans (le_max_left t u) (h2 w (by simpa [jet_loop] using hw))
          · simpa [jet_loop] using h3
      | checkpoint =>
          obtain ⟨h1, h2, h3⟩ := ih t
          refine ⟨by simpa [jet_loop, eventTimes] using h1, ?_, ?_⟩
          · intro w hw
            simp only [jet_loop, List.mem_cons] at hw
            rcases hw with rfl | hw
            · exact le_refl w
            · exact h2 w hw
          · simp only [jet_loop]
            exact List.chain'_cons'.mpr
              ⟨fun y hy => h2 y (List.mem_of_mem_head? hy), h3⟩

/-- C5.  The claim states that every periodic checkpoint stores a value
at least the value previously stored for the source.  This fails at the
start of a run: time_usec is initialised to 0 (consumer.rs line 114)
rather than to the persisted cursor, which is read only to be sent as the
subscribe cursor.  With previously stored cursor 5, a run whose first
120-second timer fires before any event is decoded writes 0, so the
sequence of stored values 5, 0 is not non-decreasing. -/
theorem cursor_checkpoint_counterexample :
    subscribe_cursor (some 5) = some 5 ∧
    cursor_writes [JetStep.checkpoint] = [0] ∧
    ¬ List.Chain' (· ≤ ·) ((5 : Int) :: cursor_writes [JetStep.checkpoint]) := by
  refine ⟨rfl, by decide, ?_⟩
  have h : cursor_writes [JetStep.checkpoint] = [0] := by decide
  rw [h]
  simp [List.chain'_cons]

/-- C5 (amended).  Within one run the claim holds: the in-process
time_usec is the running maximum of the observed event timestamps
(starting from 0, not from the persisted cursor), and the values written
by successive checkpoints of the run are non-decreasing. -/
theorem cursor_writes_amended (steps : List JetStep) :
    (consumer_run steps).1 = (eventTimes steps).foldl max 0 ∧
    List.Chain' (· ≤ ·) (cursor_writes steps) :=
  ⟨(jet_loop_spec steps 0).1, (jet_loop_spec steps 0).2.2⟩

/-- C7.  The claim states that every out-of-range page index (at or
beyond the number of stored chunks) yields an absent result.  With three
stored chunks, page 3 is indeed absent, but page 4 yields a present empty
page, because Cache::get_posts returns an empty vector whenever the page
index strictly exceeds the chunk count and falls through to the absent
chunk lookup only at equality.  The specification fixes the absent
variant as the intended behaviour for all out-of-range pages, so this is
a defect of the code. -/
theorem get_posts_out_of_range :
    Cache.get_posts (some [["a"], ["b"], ["c"]]) 3 = none ∧
    Cache.get_posts (some [["a"], ["b"], ["c"]]) 4 = some [] ∧
    some ([] : List String) ≠ none := by decide

/-- C8.  The claim states that a getFeedSkeleton request without the feed
parameter fails with a 400-class error.  The handler does fail, but the
only error rendering in the sources, TimelineFilterError::into_response,
maps every handler error to HTTP 500, which is not in the 400-class. -/
theorem missing_feed_counterexample :
    Http.handler_status (Http.handle_get_feed_skeleton ⟨none, none, none⟩ []) = 500 ∧
    ¬(400 ≤ Http.handler_status (Http.handle_get_feed_skeleton ⟨none, none, none⟩ []) ∧
      Http.handler_status (Http.handle_get_feed_skeleton ⟨none, none, none⟩ []) < 500) := by
  decide

/-- C8 (amended).  For every getFeedSkeleton request in which the feed
query parameter is missing, the handler fails and the response carries
HTTP status 500 (a 500-class error), whatever the remaining parameters
and the stored rows are. -/
theorem missing_feed_amended (limit : Option Nat) (cursor : Option Nat)
    (rows : List String) :
    Http.handler_status (Http.handle_get_feed_skeleton ⟨none, limit, cursor⟩ rows)
      = 500 := rfl

/-- A deny check over the pair of the event DID and the derived DID holds
iff one of the two is a deny-list subject. -/
theorem denylist_exists_pair (deny : List RStr) (a b : RStr) :
    denylist_exists deny [a, b] = true ↔ a ∈ deny ∨ b ∈ deny := by
  unfold denylist_exists
  constructor
  · intro h
    have h1 : 0 < (deny.filter fun row => [a, b].contains row).length := by
      simpa using h
    obtain ⟨x, hx⟩ := List.exists_mem_of_length_pos h1
    obtain ⟨hx1, hx2⟩ := List.mem_filter.mp hx
    have hab : x = a ∨ x = b := by simpa using hx2
    rcases hab with rfl | rfl
    · exact Or.inl hx1
    · exact Or.inr hx1
  · intro h
    have h1 : ∃ x ∈ deny, ¬x = a → x = b := by
      rcases h with ha | hb
      · exact ⟨a, ha, fun hna => absurd rfl hna⟩
      · exact ⟨b, hb, fun _ => rfl⟩
    simpa [List.length_pos, List.filter_eq_nil_iff, not_forall] using h1

/-- C3.  For every firehose commit event all of whose produced matches
carry a deny hit (the event DID is deny-listed, or the DID derived from
the AT-URI of the match is), the matchers loop performs no index write
and evaluates no feed beyond the first one that matches: the result pairs
the empty write list with feedsEvaluated, which counts the feeds up to
and including the first match.  The hypothesis also asks each derived
did_from_aturi call to return (not panic), which holds for every AT-URI
whose sixth byte starts a character.  In particular, when the event DID
itself is deny-listed, no feed gains an index row from the event. -/
theorem deny_short_circuit (deny : List RStr) (eventDid : RStr) (timeUs : Int)
    (feeds : List (String × Option FMatch))
    (h : ∀ fm ∈ feeds, ∀ m, fm.2 = some m →
        (did_from_aturi m.aturi).isSome = true ∧
        (eventDid ∈ deny ∨ (did_from_aturi m.aturi).getD [] ∈ deny)) :
    run_matchers deny eventDid timeUs feeds = some ([], feedsEvaluated feeds) := by
  induction feeds with
  | nil => rfl
  | cons fm rest ih =>
      obtain ⟨feed, om⟩ := fm
      cases om with
      | none =>
          have hr := ih fun fm hm m hs => h fm (List.mem_cons_of_mem _ hm) m hs
          simp [run_matchers, feedsEvaluated, hr]
      | some m =>
          obtain ⟨hsome, hdeny⟩ := h (feed, some m) (List.mem_cons_self _ _) m rfl
          obtain ⟨d, hd⟩ := Option.isSome_iff_exists.mp hsome
          have hex : denylist_exists deny [eventDid, d] = true := by
            rw [denylist_exists_pair]
            rcases hdeny with hl | hr
            · exact Or.inl hl
            · right
              rw [hd] at hr
              simpa using hr
          simp [run_matchers, feedsEvaluated, hd, hex]

/-- C3 (witness).  The theorem applied to a concrete event: the event DID
5 is deny-listed; of three feeds the first does not match, the second
matches, the third would match, and the loop stops after the second feed
with no writes. -/
theorem deny_short_circuit_witness :
    run_matchers [[5]] [5] 10
        [("f1", none), ("f2", some ⟨MatchOperation.Upsert, [97, 116, 58, 47, 47, 98]⟩),
         ("f3", some ⟨MatchOperation.Upsert, [97, 116, 58, 47, 47, 99]⟩)]
      = some ([], 2) :=
  deny_short_circuit [[5]] [5] 10
    [("f1", none), ("f2", some ⟨MatchOperation.Upsert, [97, 116, 58, 47, 47, 98]⟩),
     ("f3", some ⟨MatchOperation.Upsert, [97, 116, 58, 47, 47, 99]⟩)]
    (by decide)

/-- Matching over the lowercased string nodes is matching over the string
results of the JSON-path query, lowercased. -/
theorem stringNodes_any (nodes : List JNode) (f : RStr → Bool) :
    (stringNodes nodes).any f = true ↔
      ∃ s, JNode.jstr s ∈ nodes ∧ f (toLower s) = true := by
  simp only [List.any_eq_true, stringNodes, List.mem_filterMap]
  constructor
  · rintro ⟨v, ⟨n, hn, hv⟩, hf⟩
    cases n with
    | jstr s =>
        refine ⟨s, hn, ?_⟩
        have : toLower s = v := by simpa using hv
        rw [this]
        exact hf
    | jother => simp at hv
  · rintro ⟨s, hs, hf⟩
    exact ⟨toLower s, ⟨JNode.jstr s, hs, rfl⟩, hf⟩

/-- C9.  The claim asserts that the comparison is case-insensitive on
both the event string and the configured value.  It is not: with the
configured value A (byte 65) and an event string A, the matcher
lowercases only the event string, compares a against A, and reports no
match, while the case-insensitive comparison of the claim reports a
match. -/
theorem equals_matcher_counterexample :
    EqualsMatcher_found [65] [JNode.jstr [65]] = false ∧
    equalsSpecCI [65] [JNode.jstr [65]] = true := by decide

/-- C9 (amended).  EqualsMatcher lowercases each string result yielded by
the JSON-path and returns matched iff one of the lowercased results
equals the configured value verbatim: the comparison is case-insensitive
in the event string only, and a configured value containing an uppercase
ASCII letter can never match. -/
theorem equals_matcher_amended (expected : RStr) (nodes : List JNode) :
    EqualsMatcher_found expected nodes = true ↔
      ∃ s, JNode.jstr s ∈ nodes ∧ toLower s = expected := by
  unfold EqualsMatcher_found
  rw [stringNodes_any]
  simp

/-- Taking up to the first found slash is taking while bytes differ from
the slash byte. -/
theorem take_getD_strFind_slash (rest : RStr) :
    rest.take ((strFind [47] rest).getD rest.length) =
      rest.takeWhile (fun b => b != 47) := by
  induction rest with
  | nil => rfl
  | cons b r ih =>
      by_cases hb : b = 47
      · subst hb
        simp [strFind, List.takeWhile]
      · have hcond : ¬((b :: r).take 1 = [47]) := by simp [hb]
        rw [strFind, if_neg (by simpa using hcond)]
        cases hf : strFind [47] r with
        | none =>
            rw [hf] at ih
            simp only [Option.map_none, Option.getD_none, List.length_cons,
              List.take_succ_cons, List.takeWhile_cons]
            simp only [Option.getD_none] at ih
            simp [hb, ih]
        | some i =>
            rw [hf] at ih
            simp only [Option.map_some, Option.getD_some, List.take_succ_cons,
              List.takeWhile_cons]
            simp only [Option.getD_some] at ih
            simp [hb, ih]

/-- C10.  The claim asserts that did_from_aturi is total on every input
string.  It is not: the valid UTF-8 string whose bytes are
97 97 97 97 195 169 (the four letters a followed by the two-byte letter
e-acute) has length 6, byte index 5 falls inside the two-byte character,
and the Rust slice expression aturi[5..] panics, modelled here by none. -/
theorem did_from_aturi_counterexample :
    ValidUtf8 [97, 97, 97, 97, 195, 169] ∧
    did_from_aturi [97, 97, 97, 97, 195, 169] = none :=
  ⟨⟨[Char.ofNat 97, Char.ofNat 97, Char.ofNat 97, Char.ofNat 97, Char.ofNat 233],
    by decide⟩, by decide⟩

/-- C10 (amended).  did_from_aturi returns without panicking on every
input shorter than 6 bytes and on every input whose byte index 5 is a
character boundary; this covers every valid UTF-8 input except those
whose byte 5 is a continuation byte, where Rust panics.  Moreover, for
every input starting with the five bytes of at:// whose remainder does
not start with a continuation byte (automatic for valid UTF-8), it
returns exactly the bytes after at:// up to the next slash. -/
theorem did_from_aturi_amended :
    (∀ s : RStr, s.length < 6 ∨ isCharBoundary s 5 = true →
      (did_from_aturi s).isSome = true) ∧
    (∀ rest : RStr, (∀ b, rest.head? = some b → isContinuationByte b = false) →
      did_from_aturi (atSchemeBytes ++ rest) =
        some (rest.takeWhile (fun b => b != 47))) := by
  constructor
  · intro s hs
    unfold did_from_aturi
    by_cases h6 : s.length < 6
    · simp [h6]
    · have hbo : isCharBoundary s 5 = true := hs.resolve_left h6
      simp [h6, hbo]
  · intro rest hrest
    cases rest with
    | nil => rfl
    | cons b r =>
        have hb : isContinuationByte b = false := hrest b rfl
        have hlen : ¬((atSchemeBytes ++ b :: r).length < 6) := by
          simp [atSchemeBytes]
        have hget : (atSchemeBytes ++ b :: r)[5]? = some b := by
          simp [atSchemeBytes]
        have hbound : isCharBoundary (atSchemeBytes ++ b :: r) 5 = true := by
          unfold isCharBoundary
          rw [hget]
          simp [hb]
        have hdrop : (atSchemeBytes ++ (b :: r)).drop 5 = b :: r := rfl
        unfold did_from_aturi
        rw [if_neg hlen, if_neg (by simp [hbound])]
        rw [← take_getD_strFind_slash]
        simp only [hdrop]
        have harith : (atSchemeBytes ++ b :: r).length - 5 = (b :: r).length := by
          simp [atSchemeBytes]
        cases hf : strFind [47] (b :: r) with
        | none => simp [atSchemeBytes]
        | some i => simp [hf]

/-- A found occurrence index never exceeds the text length. -/
theorem strFind_le (pat : RStr) :
    ∀ text : RStr, ∀ p : Nat, strFind pat text = some p → p ≤ text.length := by
  intro text
  induction text with
  | nil =>
      intro p h
      unfold strFind at h
      by_cases hp : pat = []
      · rw [if_pos hp] at h
        injection h with h0
        omega
      · rw [if_neg hp] at h
        exact Option.noConfusion h
  | cons b rest ih =>
      intro p h
      rw [strFind] at h
      by_cases hc : (b :: rest).take pat.length = pat
      · rw [if_pos hc] at h
        cases h
        exact Nat.zero_le _
      · rw [if_neg hc] at h
        cases hf : strFind pat rest with
        | none => rw [hf] at h; simp at h
        | some p0 =>
            rw [hf] at h
            simp at h
            have := ih p0 hf
            simp only [List.length_cons]
            omega

/-- For positions below 2^31 the i32 cast is the identity. -/
theorem i32cast_of_lt (n : Nat) (h : n < 2 ^ 31) : i32cast n = n := by
  unfold i32cast
  have hm : (n + 2 ^ 31) % 2 ^ 32 = n + 2 ^ 31 := Nat.mod_eq_of_lt (by omega)
  rw [hm]
  push_cast
  ring

/-- Characterisation of the per-token loop: it succeeds iff every token
has a first occurrence in the text, the occurrence positions are strictly
increasing, and the first of them is beyond the incoming last_found
value.  The text-length bound keeps the i32 casts of the positions exact. -/
theorem seq_loop_iff (text : RStr) (hlen : text.length < 2 ^ 31) :
    ∀ (tokens : List RStr) (last : Int),
      (seq_loop text tokens last = true ↔
        ∃ ps : List Nat,
          tokens.map (fun t => strFind t text) = ps.map some ∧
          List.Chain' (· < ·) ps ∧
          ∀ p, ps.head? = some p → last < (p : Int)) := by
  intro tokens
  induction tokens with
  | nil =>
      intro last
      constructor
      · intro _
        exact ⟨[], rfl, List.chain'_nil, fun p hp => by simp at hp⟩
      · intro _
        rfl
  | cons t ts ih =>
      intro last
      cases hf : strFind t text with
      | none =>
          constructor
          · intro h
            rw [seq_loop, hf] at h
            simp at h
          · rintro ⟨ps, hmap, _, _⟩
            cases ps with
            | nil => simp at hmap
            | cons p ps0 =>
                simp only [List.map_cons, List.cons.injEq] at hmap
                rw [hf] at hmap
                simp at hmap
      | some p =>
          have hp31 : p < 2 ^ 31 := lt_of_le_of_lt (strFind_le t text p hf) hlen
          have hcast : i32cast p = p := i32cast_of_lt p hp31
          constructor
          · intro h
            simp only [seq_loop, hf] at h
            rw [hcast] at h
            by_cases hlt : last < (p : Int)
            · rw [if_pos hlt] at h
              obtain ⟨ps0, hmap0, hch0, hhd0⟩ := (ih (p : Int)).mp h
              refine ⟨p :: ps0, ?_, ?_, ?_⟩
              · simp [hf, hmap0]
              · rw [List.chain'_cons']
                refine ⟨?_, hch0⟩
                intro y hy
                have := hhd0 y (by simpa using hy)
                exact_mod_cast this
              · intro p0 hp0
                simp only [List.head?_cons, Option.some.injEq] at hp0
                subst hp0
                exact hlt
            · rw [if_neg hlt] at h
              simp at h
          · rintro ⟨ps, hmap, hch, hhd⟩
            cases ps with
            | nil => simp at hmap
            | cons p0 ps0 =>
                simp only [List.map_cons, List.cons.injEq] at hmap
                obtain ⟨hmh, hmt⟩ := hmap
                rw [hf] at hmh
                have hpe : p = p0 := by
                  simpa using hmh
                subst hpe
                have hlt : last < (p : Int) := hhd p rfl
                simp only [seq_loop, hf]
                rw [hcast, if_pos hlt]
                refine (ih (p : Int)).mpr ⟨ps0, hmt, (List.chain'_cons'.mp hch).2, ?_⟩
                intro y hy
                have := (List.chain'_cons'.mp hch).1 y (by simpa using hy)
                exact_mod_cast this

/-- C4.  Two concrete refutations of the claim for SequenceMatcher.
First, matching is not case-insensitive on the tokens: the token A (byte
65) against a node A never matches, because only the node is lowercased,
while the case-insensitive scan of the claim matches.  Second, the code
does not resume the scan after the previous match but takes the first
occurrence of every token in the whole string: the token list a, a
against the node aa never matches (both first occurrences are at byte 0),
while the claimed left-to-right scan matches it at positions 0 and 1. -/
theorem sequence_matcher_counterexample :
    (SequenceMatcher_found [[65]] [JNode.jstr [65]] = false ∧
      seqScanSpec [[65]] [65] = true) ∧
    (SequenceMatcher_found [[97], [97]] [JNode.jstr [97, 97]] = false ∧
      seqScanSpec [[97], [97]] [97, 97] = true) := by decide

/-- C4 (amended).  SequenceMatcher matches iff some string yielded by the
JSON-path, after lowercasing, contains every token (compared verbatim,
not lowercased) such that the FIRST occurrence positions of the tokens in
the whole lowercased string are strictly increasing in token order, the
token list being nonempty.  The length bound keeps the i32 position casts
of the Rust loop exact. -/
theorem sequence_matcher_amended (tokens : List RStr) (nodes : List JNode)
    (hlen : ∀ s, JNode.jstr s ∈ nodes → s.length < 2 ^ 31) :
    SequenceMatcher_found tokens nodes = true ↔
      ∃ s, JNode.jstr s ∈ nodes ∧ tokens ≠ [] ∧
        ∃ ps : List Nat,
          tokens.map (fun t => strFind t (toLower s)) = ps.map some ∧
          List.Chain' (· < ·) ps := by
  unfold SequenceMatcher_found
  rw [stringNodes_any]
  constructor
  · rintro ⟨s, hs, hf⟩
    unfold sequence_matches at hf
    rw [Bool.and_eq_true] at hf
    obtain ⟨hne, hloop⟩ := hf
    have hlentl : (toLower s).length < 2 ^ 31 := by
      simpa [toLower] using hlen s hs
    obtain ⟨ps, h1, h2, _⟩ := (seq_loop_iff (toLower s) hlentl tokens (-1)).mp hloop
    exact ⟨s, hs, by simpa using hne, ps, h1, h2⟩
  · rintro ⟨s, hs, hne, ps, h1, h2⟩
    refine ⟨s, hs, ?_⟩
    unfold sequence_matches
    rw [Bool.and_eq_true]
    have hlentl : (toLower s).length < 2 ^ 31 := by
      simpa [toLower] using hlen s hs
    refine ⟨by simpa using hne, ?_⟩
    rw [seq_loop_iff (toLower s) hlentl tokens (-1)]
    refine ⟨ps, h1, h2, ?_⟩
    intro p _
    have : (0 : Int) ≤ (p : Int) := Int.natCast_nonneg p
    omega

/-- C4 (amended, witness).  The amended theorem applied at the node
consisting of the bytes H space Q and the tokens h and q: the node
lowercases to h space q, the first occurrences are at bytes 0 and 2, and
the matcher matches. -/
theorem sequence_matcher_amended_witness :
    (∀ s, JNode.jstr s ∈ [JNode.jstr [72, 32, 81]] → s.length < 2 ^ 31) ∧
    (SequenceMatcher_found [[104], [113]] [JNode.jstr [72, 32, 81]] = true ↔
      ∃ s, JNode.jstr s ∈ [JNode.jstr [72, 32, 81]] ∧ [[104], [113]] ≠ ([] : List RStr) ∧
        ∃ ps : List Nat,
          [[104], [113]].map (fun t => strFind t (toLower s)) = ps.map some ∧
          List.Chain' (· < ·) ps) := by
  have hlen : ∀ s, JNode.jstr s ∈ [JNode.jstr [72, 32, 81]] → s.length < 2 ^ 31 := by
    intro s hs
    have h := List.mem_singleton.mp hs
    injection h with h2
    subst h2
    decide
  exact ⟨hlen, sequence_matcher_amended [[104], [113]] [JNode.jstr [72, 32, 81]] hlen⟩

instance scoredGE_total (p q : Nat) : IsTotal Cache.ScoredPost (Cache.scoredGE p q) :=
  ⟨fun x y => Nat.le_total (y.num ^ q * x.base ^ p) (x.num ^ q * y.base ^ p)⟩

instance scoredGE_trans (p q : Nat) : IsTrans Cache.ScoredPost (Cache.scoredGE p q) := by
  refine ⟨fun a b c hab hbc => ?_⟩
  unfold Cache.scoredGE at hab hbc ⊢
  have hpos : 0 < b.base ^ p := Nat.pos_pow_of_pos p b.base_pos
  refine Nat.le_of_mul_le_mul_right ?_ hpos
  calc c.num ^ q * a.base ^ p * b.base ^ p
      = c.num ^ q * b.base ^ p * a.base ^ p := by ring
    _ ≤ b.num ^ q * c.base ^ p * a.base ^ p := Nat.mul_le_mul_right _ hbc
    _ = b.num ^ q * a.base ^ p * c.base ^ p := by ring
    _ ≤ a.num ^ q * b.base ^ p * c.base ^ p := Nat.mul_le_mul_right _ hab
    _ = a.num ^ q * c.base ^ p * b.base ^ p := by ring

/-- The exact integer comparison used by the model coincides with the
comparison of the real-valued popular scores num / base^(p/q). -/
theorem scoredGE_iff_real (p q : Nat) (hq : 0 < q) (a b : Cache.ScoredPost) :
    Cache.scoredGE p q a b ↔
      (b.num : ℝ) / (b.base : ℝ) ^ ((p : ℝ) / (q : ℝ)) ≤
        (a.num : ℝ) / (a.base : ℝ) ^ ((p : ℝ) / (q : ℝ)) := by
  have hba : (0 : ℝ) < (a.base : ℝ) := by exact_mod_cast a.base_pos
  have hbb : (0 : ℝ) < (b.base : ℝ) := by exact_mod_cast b.base_pos
  have hγa : (0 : ℝ) < (a.base : ℝ) ^ ((p : ℝ) / (q : ℝ)) :=
    Real.rpow_pos_of_pos hba _
  have hγb : (0 : ℝ) < (b.base : ℝ) ^ ((p : ℝ) / (q : ℝ)) :=
    Real.rpow_pos_of_pos hbb _
  have hq0 : (q : ℝ) ≠ 0 := Nat.cast_ne_zero.mpr hq.ne'
  have key : ∀ m B : Nat, 0 < B →
      ((m : ℝ) * (B : ℝ) ^ ((p : ℝ) / (q : ℝ))) ^ q = ((m ^ q * B ^ p : Nat) : ℝ) := by
    intro m B hB
    have hB0 : (0 : ℝ) ≤ (B : ℝ) := by positivity
    rw [mul_pow, ← Real.rpow_natCast ((B : ℝ) ^ ((p : ℝ) / (q : ℝ))) q,
      ← Real.rpow_mul hB0]
    have hpq : (p : ℝ) / (q : ℝ) * (q : ℝ) = (p : ℝ) := by field_simp
    rw [hpq, Real.rpow_natCast]
    push_cast
    ring
  have hiff : ((b.num : ℝ) / (b.base : ℝ) ^ ((p : ℝ) / (q : ℝ)) ≤
      (a.num : ℝ) / (a.base : ℝ) ^ ((p : ℝ) / (q : ℝ))) ↔
      ((b.num ^ q * a.base ^ p : Nat) : ℝ) ≤ ((a.num ^ q * b.base ^ p : Nat) : ℝ) := by
    rw [div_le_div_iff₀ hγb hγa,
      ← pow_le_pow_iff_left₀ (by positivity) (by positivity) hq.ne',
      key b.num a.base a.base_pos, key a.num b.base b.base_pos]
  rw [hiff, Nat.cast_le]
  exact Iff.rfl

/-- C6.  The claim quantifies over every row read for a popular feed and
asserts the age formula max(1, ((now - indexed_at_seconds) / 3600) + 1).
At the row whose indexed_at is the smallest i64 (microseconds), chrono
cannot represent the timestamp, age_in_hours falls back to 1, while the
claimed formula evaluates to 2562047789 at now = 0: the claim is false
for rows outside the chrono-representable range. -/
theorem age_in_hours_counterexample :
    Storage.age_in_hours ⟨"f", "u", -9223372036854775808, 1⟩ 0 = 1 ∧
    Storage.age_in_hours ⟨"f", "u", -9223372036854775808, 1⟩ 0 ≠
      max 1 ((((0 : Int) - (-9223372036854775808 : Int).fdiv 1000000).tdiv 3600) + 1) := by
  decide

/-- C6 (amended).  For every row whose indexed_at lies in the
chrono-representable range the cache builder computes age_hours =
max(1, ((now_seconds - indexed_at_seconds) / 3600) + 1) with
indexed_at_seconds the floor of the microseconds (rows outside that range
clamp to age 1).  le is the comparison the program sorts with, the
reversed partial_cmp of the computed f64 scores, assumed total and
transitive (f64 comparison on the non-NaN scores is); under those
assumptions alone, the produced URI list is a permutation of the URIs of
the rows read and the sorted scored rows descend with respect to le.
Whenever le agrees with the exact order scoredGE of the scores
max(0, score - 1) / (2 + age_hours)^(p/q) - that is, whenever the f64
rounding of powf does not flip a comparison among the rows at hand - the
sorted rows also descend in that real-valued score. -/
theorem generate_popular_amended (posts : List Storage.FeedContent) (now : Int)
    (p q : Nat) (hq : 0 < q)
    (le : Cache.ScoredPost → Cache.ScoredPost → Prop) [DecidableRel le]
    [IsTotal Cache.ScoredPost le] [IsTrans Cache.ScoredPost le] :
    (∀ fc ∈ posts,
      Storage.chronoMicrosLo ≤ fc.indexed_at →
      fc.indexed_at ≤ Storage.chronoMicrosHi →
      Storage.age_in_hours fc now =
        max 1 (((now - fc.indexed_at.fdiv 1000000).tdiv 3600) + 1)) ∧
    (Cache.generate_popular posts now le).Perm
      (posts.map Storage.FeedContent.uri) ∧
    List.Chain' le ((posts.map (Cache.scoredPost now)).insertionSort le) ∧
    ((∀ a b, le a b ↔ Cache.scoredGE p q a b) →
      List.Chain'
        (fun a b =>
          (b.num : ℝ) / (b.base : ℝ) ^ ((p : ℝ) / (q : ℝ)) ≤
            (a.num : ℝ) / (a.base : ℝ) ^ ((p : ℝ) / (q : ℝ)))
        ((posts.map (Cache.scoredPost now)).insertionSort le)) := by
  refine ⟨?_, ?_, ?_, ?_⟩
  · intro fc _ h1 h2
    unfold Storage.age_in_hours
    rw [if_neg (by push_neg; exact ⟨h1, h2⟩)]
    exact max_comm _ _
  · unfold Cache.generate_popular
    have hperm := List.perm_insertionSort le (posts.map (Cache.scoredPost now))
    refine (hperm.map Cache.ScoredPost.uri).trans ?_
    rw [List.map_map]
    exact List.Perm.refl _
  · exact List.Pairwise.chain'
      (List.sorted_insertionSort le (posts.map (Cache.scoredPost now)))
  · intro hagree
    have hs := List.sorted_insertionSort le (posts.map (Cache.scoredPost now))
    exact (List.Pairwise.chain' hs).imp fun a b h =>
      (scoredGE_iff_real p q hq a b).mp ((hagree a b).mp h)

/-- C6 (amended, witness).  The amended theorem applied to the seed
scenario of the specification: two rows with scores 11 and 6, indexed 0
and 2 hours before now = 10000 seconds, gravity 9/5 (1.8), with the sort
comparison instantiated to the exact order scoredGE 9 5, for which the
agreement hypothesis of the last conjunct holds by reflexivity.  The
scores are 10 / 3^1.8 and 5 / 5^1.8, so the first row ranks first. -/
theorem generate_popular_amended_witness :
    0 < 5 ∧
    ((∀ fc ∈ ([⟨"f", "u2", 2800000000, 6⟩, ⟨"f", "u1", 10000000000, 11⟩] :
        List Storage.FeedContent),
      Storage.chronoMicrosLo ≤ fc.indexed_at →
      fc.indexed_at ≤ Storage.chronoMicrosHi →
      Storage.age_in_hours fc 10000 =
        max 1 (((10000 - fc.indexed_at.fdiv 1000000).tdiv 3600) + 1)) ∧
    (Cache.generate_popular
        [⟨"f", "u2", 2800000000, 6⟩, ⟨"f", "u1", 10000000000, 11⟩] 10000
        (Cache.scoredGE 9 5)).Perm
      (([⟨"f", "u2", 2800000000, 6⟩, ⟨"f", "u1", 10000000000, 11⟩] :
        List Storage.FeedContent).map Storage.FeedContent.uri) ∧
    List.Chain' (Cache.scoredGE 9 5)
      ((([⟨"f", "u2", 2800000000, 6⟩, ⟨"f", "u1", 10000000000, 11⟩] :
          List Storage.FeedContent).map (Cache.scoredPost 10000)).insertionSort
        (Cache.scoredGE 9 5)) ∧
    List.Chain'
      (fun a b =>
        (b.num : ℝ) / (b.base : ℝ) ^ ((9 : ℝ) / (5 : ℝ)) ≤
          (a.num : ℝ) / (a.base : ℝ) ^ ((9 : ℝ) / (5 : ℝ)))
      ((([⟨"f", "u2", 2800000000, 6⟩, ⟨"f", "u1", 10000000000, 11⟩] :
          List Storage.FeedContent).map (Cache.scoredPost 10000)).insertionSort
        (Cache.scoredGE 9 5))) := by
  have h := generate_popular_amended
    [⟨"f", "u2", 2800000000, 6⟩, ⟨"f", "u1", 10000000000, 11⟩] 10000 9 5
    (by decide) (Cache.scoredGE 9 5)
  exact ⟨by decide, h.1, h.2.1, h.2.2.1, h.2.2.2 fun a b => Iff.rfl⟩

/-- C10 (amended, witness).  The amended theorem applied at concrete
inputs: the five-byte string at:// maps to the empty DID without
panicking, and the nine-byte AT-URI at://bc/d maps to the DID bc. -/
theorem did_from_aturi_amended_witness :
    (did_from_aturi atSchemeBytes).isSome = true ∧
    did_from_aturi (atSchemeBytes ++ [98, 99, 47, 100]) =
      some ([98, 99, 47, 100].takeWhile (fun b => b != 47)) :=
  ⟨did_from_aturi_amended.1 atSchemeBytes (Or.inl (by decide)),
   did_from_aturi_amended.2 [98, 99, 47, 100] (by decide)⟩

end TimelineFilter
